import Mathlib

/-!
Verification of the image-gallery maintenance utilities: duplicate removal
(`remove_duplicates.py`) and content-aware cropping (`utils/crop_utils.py`).

The Python functions are embedded shallowly: the filesystem is a list of
paths together with a modification-time map, fallible primitives (hashing,
`unlink`, decode, save) are modelled as `Option`-valued operations or take an
explicit success oracle, and machine arithmetic is modelled with `Nat`, `Int`
and `Rat` (Python's `int()` truncation is `pyInt` below).
-/

/-- Paths are modelled as their character lists (Lean's `String.lt` does not
reduce in the kernel, while `List Char` operations do). -/
abbrev FPath := List Char

/-- Shorthand turning a string literal into a path. -/
def str (s : String) : FPath := s.data

abbrev ImgHash := List Char

/-- The filesystem as seen by `remove_duplicates.py`: the set of existing
files (as a list of paths) and each path's `stat().st_mtime`. -/
structure FS where
  files : List FPath
  mtime : FPath → Nat

/-- `file_paths.sort(key=lambda p: p.stat().st_mtime, reverse=not keep_oldest)`:
Python's stable sort by modification time, ascending when `keepOldest` is
true and descending otherwise (insertion sort is stable, like Python's). -/
def sortByMtime (mtime : FPath → Nat) (keepOldest : Bool) (ps : List FPath) : List FPath :=
  if keepOldest then List.insertionSort (fun a b => mtime a ≤ mtime b) ps
  else List.insertionSort (fun a b => mtime b ≤ mtime a) ps

/-- `keep_path = file_paths[0]` after the sort in `remove_duplicates`. -/
def keepPath (mtime : FPath → Nat) (keepOldest : Bool) (group : List FPath) : Option FPath :=
  (sortByMtime mtime keepOldest group).head?

/-- The inner loop of `remove_duplicates` over `remove_paths`: in a dry run a
candidate is only logged; otherwise `remove_path.unlink()` is attempted (its
success given by the oracle `ok`); on success the file disappears and
`files_removed` is incremented, on failure the error is logged and the loop
continues. -/
def deleteCandidates (ok : FPath → Bool) (dryRun : Bool) :
    List FPath → Nat → List FPath → Nat × List FPath
  | [], removed, files => (removed, files)
  | p :: rest, removed, files =>
    if dryRun then deleteCandidates ok dryRun rest removed files
    else if ok p then deleteCandidates ok dryRun rest (removed + 1) (files.erase p)
    else deleteCandidates ok dryRun rest removed files

/-- One iteration of the outer loop of `remove_duplicates`: sort the group by
modification time, keep index 0, increment `files_kept`, and run the deletion
loop on `file_paths[1:]`. The accumulator is `((files_kept, files_removed),`
filesystem`)`. -/
def processGroup (keepOldest dryRun : Bool) (ok : FPath → Bool)
    (acc : (Nat × Nat) × FS) (g : ImgHash × List FPath) : (Nat × Nat) × FS :=
  let sorted := sortByMtime acc.2.mtime keepOldest g.2
  let res := deleteCandidates ok dryRun sorted.tail acc.1.2 acc.2.files
  ((acc.1.1 + 1, res.1), ⟨res.2, acc.2.mtime⟩)

/-- `remove_duplicates(duplicates, keep_oldest, dry_run)`, returning
`((files_kept, files_removed), final filesystem)`. -/
def remove_duplicates (dups : List (ImgHash × List FPath)) (keepOldest dryRun : Bool)
    (ok : FPath → Bool) (fs : FS) : (Nat × Nat) × FS :=
  dups.foldl (processGroup keepOldest dryRun ok) ((0, 0), fs)

/-- `hash_groups[image_hash].append(image_path)` on an insertion-ordered
hash-to-paths mapping (Python's `defaultdict(list)`). -/
def addToGroups : List (ImgHash × List FPath) → ImgHash → FPath → List (ImgHash × List FPath)
  | [], hv, p => [(hv, [p])]
  | (k, ps) :: rest, hv, p =>
    if k = hv then (k, ps ++ [p]) :: rest
    else (k, ps) :: addToGroups rest hv p

/-- The scanning loop of `find_duplicates`: each image is fingerprinted by
`h` (`get_image_hash` or `get_file_hash`; `none` models a file that cannot be
processed, which is skipped) and appended to its fingerprint's group. -/
def hashGroups (h : FPath → Option ImgHash) (images : List FPath) : List (ImgHash × List FPath) :=
  images.foldl (fun gs p => match h p with | none => gs | some hv => addToGroups gs hv p) []

/-- `find_duplicates`: group the scanned images by fingerprint and retain only
the groups with two or more members. -/
def find_duplicates (h : FPath → Option ImgHash) (images : List FPath) :
    List (ImgHash × List FPath) :=
  (hashGroups h images).filter fun g => 1 < g.2.length

/-- The fixed extension set of `find_images`. -/
def image_extensions : List FPath :=
  [str ".jpg", str ".jpeg", str ".png", str ".gif", str ".bmp", str ".tiff",
   str ".webp", str ".tif"]

/-- Python's `str.upper()`, character by character. -/
def upper (s : FPath) : FPath := s.map Char.toUpper

/-- `find_images`: for each extension the globs `*{ext}` and `*{ext.upper()}`
collect the files whose path ends with the all-lowercase or the all-uppercase
extension, and the concatenation is returned by `sorted(...)` (lexicographic
path order). -/
def find_images (files : List FPath) : List FPath :=
  List.insertionSort (fun a b : FPath => a ≤ b)
    (image_extensions.foldl
      (fun acc ext =>
        acc ++ files.filter (fun p => ext.isSuffixOf p)
            ++ files.filter (fun p => (upper ext).isSuffixOf p)) [])

/-- Concrete modification times for the scenario directory. -/
def demoMtime : FPath → Nat :=
  fun p => if p = str "a.png" then 1 else if p = str "b.png" then 2 else 3

/-- Exact-mode fingerprints for the scenario: `a.png` and `b.png` are
byte-identical, `c.png` is unrelated. -/
def demoHash : FPath → Option ImgHash :=
  fun p => if p = str "c.png" then some (str "h2") else some (str "h1")

/-- The scenario directory. -/
def demoFS : FS := ⟨[str "a.png", str "b.png", str "c.png"], demoMtime⟩

/-- A deletion oracle under which every `unlink` succeeds. -/
def demoOk : FPath → Bool := fun _ => true

/-- The scenario scan. -/
def demoImages : List FPath := find_images [str "a.png", str "b.png", str "c.png"]

/-- An RGBA pixel (channel values 0..255). -/
structure Pixel where
  r : Nat
  g : Nat
  b : Nat
  a : Nat

/-- A decoded RGBA image: dimensions and the pixel grid, `pix row col`. -/
structure Img where
  width : Nat
  height : Nat
  pix : Nat → Nat → Pixel

/-- The per-pixel mask `non_white & non_transparent` of
`crop_image_to_content`: not all three colour channels at 255, and alpha
strictly positive. -/
def isContent (p : Pixel) : Bool :=
  (!(p.r == 255 && p.g == 255 && p.b == 255)) && decide (0 < p.a)

/-- `rows = np.any(content_mask, axis=1)` at row `row`. -/
def rowHasContent (img : Img) (row : Nat) : Bool :=
  (List.range img.width).any fun col => isContent (img.pix row col)

/-- `cols = np.any(content_mask, axis=0)` at column `col`. -/
def colHasContent (img : Img) (col : Nat) : Bool :=
  (List.range img.height).any fun row => isContent (img.pix row col)

/-- `np.where(rows)[0]`: the indices of the rows containing content. -/
def contentRows (img : Img) : List Nat :=
  (List.range img.height).filter (rowHasContent img)

/-- `np.where(cols)[0]`: the indices of the columns containing content. -/
def contentCols (img : Img) : List Nat :=
  (List.range img.width).filter (colHasContent img)

/-- `top/bottom/left/right`: the first and last content row and column
(inclusive indices); `none` when `np.any(content_mask)` is false. -/
def contentBounds (img : Img) : Option (Nat × Nat × Nat × Nat) :=
  match (contentRows img).head?, (contentRows img).getLast?,
      (contentCols img).head?, (contentCols img).getLast? with
  | some t, some b, some l, some r => some (t, b, l, r)
  | _, _, _, _ => none

/-- Python's `int()` (truncation toward zero) on a rational. -/
def pyInt (q : ℚ) : ℤ := if 0 ≤ q then ⌊q⌋ else ⌈q⌉

/-- `margin = int(max(margin_percent * width, margin_percent * height))`
where `width = right - left` and `height = bottom - top` are differences of
the inclusive bound indices. -/
def cropMargin (m : ℚ) (t b l r : Nat) : ℤ :=
  pyInt (max (m * ((r : ℚ) - (l : ℚ))) (m * ((b : ℚ) - (t : ℚ))))

/-- The rectangle `(left, top, right, bottom)` handed to `img.crop`, after
margin expansion and clamping; `none` when no content was found. -/
def cropBox (img : Img) (m : ℚ) : Option (ℤ × ℤ × ℤ × ℤ) :=
  match contentBounds img with
  | none => none
  | some (t, b, l, r) =>
    some (max 0 ((l : ℤ) - cropMargin m t b l r),
      max 0 ((t : ℤ) - cropMargin m t b l r),
      min (img.width : ℤ) ((r : ℤ) + cropMargin m t b l r),
      min (img.height : ℤ) ((b : ℤ) + cropMargin m t b l r))

/-- PIL's `img.crop((left, top, right, bottom))`: the half-open rectangle
`[left, right) × [top, bottom)`; pixel `(row, col)` of the result is pixel
`(top + row, left + col)` of the original. -/
def cropImg (img : Img) (L T R B : ℤ) : Img :=
  { width := (R - L).toNat, height := (B - T).toNat,
    pix := fun row col => img.pix (T.toNat + row) (L.toNat + col) }

/-- Original pixel `(row, col)` lies in the crop rectangle
`(left, top, right, bottom)`: PIL keeps the columns `left ≤ col < right` and
the rows `top ≤ row < bottom`. -/
def inCropRect (L T R B : ℤ) (row col : Nat) : Prop :=
  L ≤ (col : ℤ) ∧ (col : ℤ) < R ∧ T ≤ (row : ℤ) ∧ (row : ℤ) < B

/-- `crop_image_to_content(image_path, margin_percent)` over an abstract file
store: `file` is the byte content at `image_path`, `decode` is `Image.open`
plus the RGBA conversion (`none` models a raised exception), `encode` is
`save(image_path, quality=95)` (`none` models a raised exception; a failing
primitive is atomic, so the `except` clause sees the pre-call state). The
module flag `ENABLE_CROPPING` is the first argument. Returns the Python
return value together with the final content of the file. -/
def crop_image_to_content {F : Type} (enableCropping : Bool)
    (decode : F → Option Img) (encode : Img → Option F) (m : ℚ) (file : F) :
    Bool × F :=
  if enableCropping = false then (false, file)
  else
    match decode file with
    | none => (false, file)
    | some img =>
      match cropBox img m with
      | none => (false, file)
      | some (L, T, R, B) =>
        match encode (cropImg img L T R B) with
        | none => (false, file)
        | some out => (true, out)

/-- A 4×4 image whose top-left 2×2 block is black and opaque and whose other
pixels are white and opaque. -/
def demoBlock : Img :=
  { width := 4, height := 4,
    pix := fun row col =>
      if row < 2 && col < 2 then ⟨0, 0, 0, 255⟩ else ⟨255, 255, 255, 255⟩ }

/-- A 12×12 image with a black opaque 10×10 block at rows and columns 1..10,
all other pixels white and opaque. -/
def demoBlock10 : Img :=
  { width := 12, height := 12,
    pix := fun row col =>
      if 1 ≤ row && row ≤ 10 && 1 ≤ col && col ≤ 10 then ⟨0, 0, 0, 255⟩
      else ⟨255, 255, 255, 255⟩ }

/-- A 3×3 image with a single black opaque pixel at `(1, 1)`, all other
pixels white and opaque. -/
def demoDot : Img :=
  { width := 3, height := 3,
    pix := fun row col =>
      if row == 1 && col == 1 then ⟨0, 0, 0, 255⟩ else ⟨255, 255, 255, 255⟩ }

/-- The discovery predicate as Claim C9 states it (the reference for the
refinement comparison, following the spec's words): the file's extension,
matched case-insensitively, belongs to the fixed image-extension set. -/
def specIsImage (p : FPath) : Bool :=
  image_extensions.any fun ext => ext.isSuffixOf (p.map Char.toLower)

/-- The suffix test `find_images` actually performs: the path ends with the
all-lowercase or the all-uppercase spelling of one of the extensions. -/
def matchesGlob (p : FPath) : Bool :=
  image_extensions.any fun ext => ext.isSuffixOf p || (upper ext).isSuffixOf p

/-- `a` is the first index below `n` satisfying `q`. -/
def leastTrue (q : Nat → Bool) (n a : Nat) : Prop :=
  q a = true ∧ a < n ∧ ∀ i < a, q i = false

/-- `a` is the last index below `n` satisfying `q`. -/
def greatestTrue (q : Nat → Bool) (n a : Nat) : Prop :=
  q a = true ∧ a < n ∧ ∀ i, a < i → i < n → q i = false

theorem deleteCandidates_dry (ok : FPath → Bool) (l : List FPath) (n : Nat)
    (files : List FPath) : deleteCandidates ok true l n files = (n, files) := by
  induction l generalizing n files with
  | nil => rfl
  | cons p rest ih => simp [deleteCandidates, ih]

theorem processGroup_dry (keepOldest : Bool) (ok : FPath → Bool)
    (acc : (Nat × Nat) × FS) (g : ImgHash × List FPath) :
    processGroup keepOldest true ok acc g = ((acc.1.1 + 1, acc.1.2), acc.2) := by
  simp [processGroup, deleteCandidates_dry]

theorem foldl_processGroup_dry (keepOldest : Bool) (ok : FPath → Bool)
    (dups : List (ImgHash × List FPath)) (acc : (Nat × Nat) × FS) :
    (dups.foldl (processGroup keepOldest true ok) acc).2 = acc.2 := by
  induction dups generalizing acc with
  | nil => rfl
  | cons g rest ih => rw [List.foldl_cons, processGroup_dry, ih]

/-- Claim C5: with the dry-run flag set, `remove_duplicates` performs no
filesystem mutation, for every duplicate grouping: the filesystem (file set
and timestamps) after the run equals the one before it. -/
theorem dry_run_no_mutation (dups : List (ImgHash × List FPath))
    (keepOldest : Bool) (ok : FPath → Bool) (fs : FS) :
    (remove_duplicates dups keepOldest true ok fs).2 = fs := by
  unfold remove_duplicates
  exact foldl_processGroup_dry keepOldest ok dups ((0, 0), fs)

/-- Claim C1 (code bug): on the scenario directory with `a.png`, `b.png`
byte-identical and `c.png` unrelated, exact-match fingerprints and default
keep-oldest, the non-dry run returns `(files_kept, files_removed) = (1, 1)`
exactly as the claim states, but with the dry-run flag set the function
returns `files_removed = 0` rather than the would-be-removed count `1`: the
dry-run branch logs each candidate without ever incrementing the counter,
although `main` prints this very value as `Files that would be removed`. -/
theorem remove_duplicates_dry_run_count :
    (remove_duplicates (find_duplicates demoHash demoImages) true false demoOk demoFS).1
        = (1, 1) ∧
    (remove_duplicates (find_duplicates demoHash demoImages) true true demoOk demoFS).1
        = (1, 0) := ⟨by decide, by decide⟩

/-- Claim C7: for a two-file duplicate group whose members have distinct
modification times, the keep-oldest pass and the keep-newest pass retain
different files (`keep_path = file_paths[0]` differs between the two modes). -/
theorem keep_tiebreaks_disagree (mtime : FPath → Nat) (a b : FPath)
    (hne : mtime a ≠ mtime b) :
    keepPath mtime true [a, b] ≠ keepPath mtime false [a, b] := by
  have hab : a ≠ b := fun e => hne (by rw [e])
  unfold keepPath sortByMtime
  rcases Nat.lt_or_ge (mtime a) (mtime b) with h | h
  · have h1 : mtime a ≤ mtime b := Nat.le_of_lt h
    have h2 : ¬ (mtime b ≤ mtime a) := Nat.not_le.mpr h
    simp [List.insertionSort, List.orderedInsert, h1, h2, hab]
  · have h3 : mtime b < mtime a := Nat.lt_of_le_of_ne h fun e => hne e.symm
    have h1 : ¬ (mtime a ≤ mtime b) := Nat.not_le.mpr h3
    have h2 : mtime b ≤ mtime a := Nat.le_of_lt h3
    simp [List.insertionSort, List.orderedInsert, h1, h2, Ne.symm hab]

/-- Witness for C7 at the scenario group: `a.png` (mtime 1) and `b.png`
(mtime 2) give different retained files in the two modes. -/
theorem keep_tiebreaks_disagree_witness :
    demoMtime (str "a.png") ≠ demoMtime (str "b.png") ∧
    keepPath demoMtime true [str "a.png", str "b.png"]
      ≠ keepPath demoMtime false [str "a.png", str "b.png"] :=
  ⟨by decide, keep_tiebreaks_disagree demoMtime (str "a.png") (str "b.png") (by decide)⟩

/-- Claim C10: with the module flag `ENABLE_CROPPING` set to false,
`crop_image_to_content` returns `False` and the file content is untouched,
for every decoder, encoder, margin and file: the function returns before any
decode, crop or save can run. -/
theorem crop_disabled_is_noop {F : Type} (decode : F → Option Img)
    (encode : Img → Option F) (m : ℚ) (file : F) :
    crop_image_to_content false decode encode m file = (false, file) := rfl

/-- Claim C6: whenever `crop_image_to_content` fails it reports failure and
the source file is unmodified: a `False` result always comes with the
original file content, and each failure cause — decode raising, no pixel
qualifying as content, save raising — returns `(False, original file)`, so
no partial write is visible to the caller. -/
theorem crop_failure_leaves_file_unchanged {F : Type} (enable : Bool)
    (decode : F → Option Img) (encode : Img → Option F) (m : ℚ) (file : F) :
    ((crop_image_to_content enable decode encode m file).1 = false →
      (crop_image_to_content enable decode encode m file).2 = file) ∧
    (decode file = none →
      crop_image_to_content enable decode encode m file = (false, file)) ∧
    (∀ img, decode file = some img → cropBox img m = none →
      crop_image_to_content enable decode encode m file = (false, file)) ∧
    (∀ img L T R B, decode file = some img → cropBox img m = some (L, T, R, B) →
      encode (cropImg img L T R B) = none →
      crop_image_to_content enable decode encode m file = (false, file)) := by
  cases enable with
  | false => exact ⟨fun _ => rfl, fun _ => rfl, fun _ _ _ => rfl, fun _ _ _ _ _ _ _ _ => rfl⟩
  | true =>
    refine ⟨?_, ?_, ?_, ?_⟩
    · intro hfalse
      cases hdec : decode file with
      | none => simp [crop_image_to_content, hdec]
      | some img =>
        cases hbox : cropBox img m with
        | none => simp [crop_image_to_content, hdec, hbox]
        | some box =>
          obtain ⟨L, T, R, B⟩ := box
          cases henc : encode (cropImg img L T R B) with
          | none => simp [crop_image_to_content, hdec, hbox, henc]
          | some out => simp [crop_image_to_content, hdec, hbox, henc] at hfalse
    · intro h; simp [crop_image_to_content, h]
    · intro img h1 h2; simp [crop_image_to_content, h1, h2]
    · intro img L T R B h1 h2 h3; simp [crop_image_to_content, h1, h2, h3]

/-- Witness for C6: a decoder that raises leaves the (numeric) file store
unchanged and reports failure. -/
theorem crop_failure_witness :
    crop_image_to_content true (fun _ : Nat => (none : Option Img))
      (fun _ => (none : Option Nat)) (1/10 : ℚ) 0 = (false, 0) :=
  (crop_failure_leaves_file_unchanged true (fun _ => none) (fun _ => none)
    (1/10 : ℚ) 0).2.1 rfl

theorem mem_deleteCandidates (ok : FPath → Bool) (l : List FPath) (n : Nat)
    (files : List FPath) (hnd : files.Nodup) (hok : ∀ p ∈ l, ok p = true)
    (x : FPath) :
    x ∈ (deleteCandidates ok false l n files).2 ↔ x ∈ files ∧ x ∉ l := by
  induction l generalizing n files with
  | nil => simp [deleteCandidates]
  | cons p rest ih =>
    have hp : ok p = true := hok p (by simp)
    have hok' : ∀ q ∈ rest, ok q = true := fun q hq => hok q (by simp [hq])
    simp only [deleteCandidates, hp, if_true, Bool.false_eq_true, if_false]
    rw [ih n.succ (files.erase p) (hnd.erase p) hok' ]
    rw [hnd.mem_erase_iff]
    constructor
    · rintro ⟨⟨hne, hf⟩, hnr⟩
      exact ⟨hf, by simp [hne, hnr]⟩
    · rintro ⟨hf, hn⟩
      simp only [List.mem_cons, not_or] at hn
      exact ⟨⟨hn.1, hf⟩, hn.2⟩

theorem sortByMtime_perm (mtime : FPath → Nat) (keepOldest : Bool)
    (ps : List FPath) : (sortByMtime mtime keepOldest ps).Perm ps := by
  unfold sortByMtime
  split <;> exact List.perm_insertionSort _ _

/-- Claim C2: in a run over one duplicate group with dry-run off, when every
attempted deletion succeeds, exactly the member at index 0 of the group
sorted by modification time (ascending for keep-oldest, descending for
keep-newest) survives among the group's members: a group member is still on
the filesystem afterwards iff it is that retained representative. -/
theorem one_survivor_per_group (hv : ImgHash) (group : List FPath)
    (keepOldest : Bool) (ok : FPath → Bool) (fs : FS)
    (hlen : 2 ≤ group.length) (hnd : group.Nodup)
    (hsub : ∀ p ∈ group, p ∈ fs.files) (hfnd : fs.files.Nodup)
    (hok : ∀ p ∈ (sortByMtime fs.mtime keepOldest group).tail, ok p = true) :
    ∀ p ∈ group,
      (p ∈ (remove_duplicates [(hv, group)] keepOldest false ok fs).2.files ↔
        (sortByMtime fs.mtime keepOldest group).head? = some p) := by
  intro p hp
  have hperm : (sortByMtime fs.mtime keepOldest group).Perm group :=
    sortByMtime_perm fs.mtime keepOldest group
  have hlen' : 2 ≤ (sortByMtime fs.mtime keepOldest group).length := by
    rw [hperm.length_eq]; exact hlen
  obtain ⟨k, t, hkt⟩ : ∃ k t, sortByMtime fs.mtime keepOldest group = k :: t := by
    cases hsc : sortByMtime fs.mtime keepOldest group with
    | nil => rw [hsc] at hlen'; simp at hlen'
    | cons k t => exact ⟨k, t, rfl⟩
  have hsnd : (sortByMtime fs.mtime keepOldest group).Nodup := hperm.nodup_iff.mpr hnd
  have hknt : k ∉ t := by
    rw [hkt] at hsnd; exact (List.nodup_cons.mp hsnd).1
  have hfin : (remove_duplicates [(hv, group)] keepOldest false ok fs).2.files
      = (deleteCandidates ok false (sortByMtime fs.mtime keepOldest group).tail
          0 fs.files).2 := rfl
  rw [hfin, mem_deleteCandidates ok _ 0 fs.files hfnd hok p, hkt]
  have hpmem : p = k ∨ p ∈ t := by
    have hps : p ∈ sortByMtime fs.mtime keepOldest group := hperm.mem_iff.mpr hp
    rw [hkt] at hps
    simpa using hps
  simp only [List.tail_cons, List.head?_cons, Option.some.injEq, hsub p hp, true_and]
  constructor
  · intro hnt
    rcases hpmem with h | h
    · exact h.symm
    · exact absurd h hnt
  · intro hkp
    rw [← hkp]
    exact hknt

/-- Witness for C2 at the scenario group `{a.png, b.png}` with keep-oldest:
the survivor among the group members is exactly `a.png`, the head after the
ascending sort. -/
theorem one_survivor_witness :
    (2 ≤ ([str "a.png", str "b.png"] : List FPath).length) ∧
    (∀ p ∈ ([str "a.png", str "b.png"] : List FPath),
      (p ∈ (remove_duplicates [(str "h1", [str "a.png", str "b.png"])]
              true false demoOk demoFS).2.files ↔
        (sortByMtime demoFS.mtime true [str "a.png", str "b.png"]).head? = some p)) :=
  ⟨by decide,
    one_survivor_per_group (str "h1") [str "a.png", str "b.png"] true demoOk demoFS
      (by decide) (by decide) (by decide) (by decide) (by decide)⟩

theorem addToGroups_cases (gs : List (ImgHash × List FPath)) (hv : ImgHash)
    (p : FPath) {k : ImgHash} {qs : List FPath}
    (hmem : (k, qs) ∈ addToGroups gs hv p) :
    (k, qs) ∈ gs ∨ (k = hv ∧ qs = [p]) ∨
      (k = hv ∧ ∃ ps, (k, ps) ∈ gs ∧ qs = ps ++ [p]) := by
  induction gs with
  | nil =>
    simp only [addToGroups, List.mem_singleton] at hmem
    exact Or.inr (Or.inl ⟨congrArg Prod.fst hmem, congrArg Prod.snd hmem⟩)
  | cons g rest ih =>
    obtain ⟨k0, ps0⟩ := g
    simp only [addToGroups] at hmem
    by_cases hk : k0 = hv
    · rw [if_pos hk] at hmem
      rcases List.mem_cons.mp hmem with heq | hrest
      · have hk1 : k = k0 := congrArg Prod.fst heq
        have hq1 : qs = ps0 ++ [p] := congrArg Prod.snd heq
        refine Or.inr (Or.inr ⟨hk1.trans hk, ps0, ?_, hq1⟩)
        rw [hk1]
        exact List.mem_cons_self _ _
      · exact Or.inl (List.mem_cons_of_mem _ hrest)
    · rw [if_neg hk] at hmem
      rcases List.mem_cons.mp hmem with heq | hrest
      · exact Or.inl (by rw [heq]; exact List.mem_cons_self _ _)
      · rcases ih hrest with h | h | h
        · exact Or.inl (List.mem_cons_of_mem _ h)
        · exact Or.inr (Or.inl h)
        · obtain ⟨hkv, ps, hps, hqs⟩ := h
          exact Or.inr (Or.inr ⟨hkv, ps, List.mem_cons_of_mem _ hps, hqs⟩)

theorem hashGroups_invariant (h : FPath → Option ImgHash) :
    ∀ (images : List FPath) (acc : List (ImgHash × List FPath)) (S : List FPath),
      (∀ k qs, (k, qs) ∈ acc → (∀ q ∈ qs, h q = some k) ∧ qs.Sublist S) →
      ∀ k qs,
        (k, qs) ∈ images.foldl
          (fun gs p => match h p with | none => gs | some hv => addToGroups gs hv p) acc →
        (∀ q ∈ qs, h q = some k) ∧ qs.Sublist (S ++ images) := by
  intro images
  induction images with
  | nil =>
    intro acc S hinv k qs hmem
    rw [List.append_nil]
    exact hinv k qs hmem
  | cons p rest ih =>
    intro acc S hinv k qs hmem
    rw [List.foldl_cons] at hmem
    have hstep : ∀ k qs,
        (k, qs) ∈ (match h p with | none => acc | some hv => addToGroups acc hv p) →
        (∀ q ∈ qs, h q = some k) ∧ qs.Sublist (S ++ [p]) := by
      intro k' qs' hmem'
      cases hp : h p with
      | none =>
        rw [hp] at hmem'
        obtain ⟨h1, h2⟩ := hinv k' qs' hmem'
        exact ⟨h1, h2.trans (List.sublist_append_left S [p])⟩
      | some hv =>
        rw [hp] at hmem'
        rcases addToGroups_cases acc hv p hmem' with hold | hnew | happ
        · obtain ⟨h1, h2⟩ := hinv k' qs' hold
          exact ⟨h1, h2.trans (List.sublist_append_left S [p])⟩
        · obtain ⟨hk, hqs⟩ := hnew
          subst hk; subst hqs
          exact ⟨by simpa using hp, List.sublist_append_right S [p]⟩
        · obtain ⟨hk, ps, hps, hqs⟩ := happ
          subst hqs
          obtain ⟨h1, h2⟩ := hinv k' ps hps
          refine ⟨?_, h2.append (List.Sublist.refl [p])⟩
          intro q hq
          rcases List.mem_append.mp hq with hql | hqr
          · exact h1 q hql
          · rw [List.mem_singleton.mp hqr, hp, hk]
    have := ih _ (S ++ [p]) hstep k qs hmem
    rwa [List.append_assoc, List.singleton_append] at this

theorem hashGroups_sound (h : FPath → Option ImgHash) (images : List FPath) :
    ∀ k qs, (k, qs) ∈ hashGroups h images →
      (∀ q ∈ qs, h q = some k) ∧ qs.Sublist images := by
  have := hashGroups_invariant h images [] [] (by simp)
  simpa [hashGroups] using this

theorem mem_deleteCandidates_of_not_mem (ok : FPath → Bool) (dryRun : Bool)
    (l : List FPath) (n : Nat) (files : List FPath) (x : FPath)
    (hx : x ∈ files) (hnl : x ∉ l) :
    x ∈ (deleteCandidates ok dryRun l n files).2 := by
  induction l generalizing n files with
  | nil => exact hx
  | cons q rest ih =>
    have hq : x ≠ q ∧ x ∉ rest := by simpa [not_or] using hnl
    cases dryRun with
    | true => simpa [deleteCandidates] using ih n files hx hq.2
    | false =>
      by_cases ho : ok q = true
      · simp only [deleteCandidates, Bool.false_eq_true, if_false, ho, if_true]
        exact ih _ _ ((List.mem_erase_of_ne hq.1).mpr hx) hq.2
      · simp only [deleteCandidates, Bool.false_eq_true, if_false, ho]
        exact ih _ _ hx hq.2

theorem mem_processGroup_of_not_mem (keepOldest dryRun : Bool) (ok : FPath → Bool)
    (acc : (Nat × Nat) × FS) (g : ImgHash × List FPath) (p : FPath)
    (hp : p ∈ acc.2.files) (hng : p ∉ g.2) :
    p ∈ (processGroup keepOldest dryRun ok acc g).2.files := by
  unfold processGroup
  apply mem_deleteCandidates_of_not_mem _ _ _ _ _ _ hp
  intro hmem
  exact hng ((sortByMtime_perm _ _ _).mem_iff.mp (List.mem_of_mem_tail hmem))

theorem foldl_processGroup_safe (keepOldest dryRun : Bool) (ok : FPath → Bool)
    (p : FPath) :
    ∀ (dups : List (ImgHash × List FPath)) (acc : (Nat × Nat) × FS),
      p ∈ acc.2.files → (∀ g ∈ dups, p ∉ g.2) →
      p ∈ (dups.foldl (processGroup keepOldest dryRun ok) acc).2.files := by
  intro dups
  induction dups with
  | nil => intro acc hacc _; exact hacc
  | cons g rest ih =>
    intro acc hacc hno
    rw [List.foldl_cons]
    exact ih _ (mem_processGroup_of_not_mem keepOldest dryRun ok acc g p hacc
        (hno g (by simp)))
      (fun g' hg' => hno g' (by simp [hg']))

/-- Claim C8: a scanned file whose fingerprint is shared by no other scanned
file is never deleted: its singleton group is discarded by `find_duplicates`
before the removal pass, and the removal pass deletes only members of the
groups it is given, so the file is still on the filesystem after the run,
for either tie-break policy and with or without dry-run. -/
theorem unique_fingerprint_never_deleted (h : FPath → Option ImgHash)
    (images : List FPath) (keepOldest dryRun : Bool) (ok : FPath → Bool)
    (fs : FS) (p : FPath) (hv : ImgHash)
    (hnd : images.Nodup) (hp : p ∈ fs.files) (hhash : h p = some hv)
    (huniq : ∀ q ∈ images, h q = some hv → q = p) :
    p ∈ (remove_duplicates (find_duplicates h images)
        keepOldest dryRun ok fs).2.files := by
  unfold remove_duplicates
  apply foldl_processGroup_safe keepOldest dryRun ok p _ _ hp
  intro g hg hpg
  obtain ⟨k, qs⟩ := g
  obtain ⟨hmem, hlen⟩ : (k, qs) ∈ hashGroups h images ∧ 1 < qs.length := by
    have := List.mem_filter.mp hg
    exact ⟨this.1, by simpa using this.2⟩
  obtain ⟨hsound, hsub⟩ := hashGroups_sound h images k qs hmem
  have hk : some k = some hv := by rw [← hsound p hpg, hhash]
  have hall : ∀ q ∈ qs, q = p := fun q hq =>
    huniq q (hsub.subset hq) (by rw [hsound q hq]; exact hk)
  have hqnd : qs.Nodup := hnd.sublist hsub
  match qs, hlen with
  | q1 :: q2 :: qs'', _ =>
    have h1 : q1 = p := hall q1 (by simp)
    have h2 : q2 = p := hall q2 (by simp)
    have hn1 : q1 ∉ q2 :: qs'' := (List.nodup_cons.mp hqnd).1
    exact hn1 (by simp [h1, h2])

/-- Witness for C8: in the scenario directory, `c.png` has a unique
fingerprint and survives the (non-dry) removal run. -/
theorem unique_fingerprint_witness :
    demoHash (str "c.png") = some (str "h2") ∧
    str "c.png" ∈ (remove_duplicates (find_duplicates demoHash demoImages)
        true false demoOk demoFS).2.files :=
  ⟨by decide,
    unique_fingerprint_never_deleted demoHash demoImages true false demoOk demoFS
      (str "c.png") (str "h2") (by decide) (by decide) (by decide) (by decide)⟩

/-- Claim C9 (counterexample): `a.Jpg` has extension `.jpg` once case is
ignored, yet `find_images` does not enumerate it — the code only globs the
all-lowercase and the all-uppercase spelling of each extension, so a
mixed-case extension is missed. -/
theorem find_images_misses_mixed_case :
    specIsImage (str "a.Jpg") = true ∧ find_images [str "a.Jpg"] = [] := by
  constructor <;> decide

theorem mem_glob_fold (files : List FPath) (p : FPath) :
    ∀ (exts : List FPath) (acc : List FPath),
      p ∈ exts.foldl
        (fun acc ext =>
          acc ++ files.filter (fun q => ext.isSuffixOf q)
              ++ files.filter (fun q => (upper ext).isSuffixOf q)) acc ↔
      p ∈ acc ∨ ∃ ext ∈ exts, p ∈ files ∧
        (ext.isSuffixOf p || (upper ext).isSuffixOf p) = true := by
  intro exts
  induction exts with
  | nil => simp
  | cons e rest ih =>
    intro acc
    rw [List.foldl_cons, ih]
    simp only [List.mem_append, List.mem_filter, List.mem_cons, Bool.or_eq_true]
    constructor
    · rintro (((hacc | hf) | hf) | ⟨ext, hext, hf, hsuf⟩)
      · exact Or.inl hacc
      · exact Or.inr ⟨e, Or.inl rfl, hf.1, Or.inl hf.2⟩
      · exact Or.inr ⟨e, Or.inl rfl, hf.1, Or.inr hf.2⟩
      · exact Or.inr ⟨ext, Or.inr hext, hf, hsuf⟩
    · rintro (hacc | ⟨ext, hext | hext, hf, hsuf⟩)
      · exact Or.inl (Or.inl (Or.inl hacc))
      · subst hext
        rcases hsuf with hs | hs
        · exact Or.inl (Or.inl (Or.inr ⟨hf, hs⟩))
        · exact Or.inl (Or.inr ⟨hf, hs⟩)
      · exact Or.inr ⟨ext, hext, hf, hsuf⟩

/-- Claim C9 (amended): `find_images` enumerates exactly the files whose
path ends with one of the fixed extensions spelled all-lowercase or
all-uppercase (mixed-case extensions are not matched), and returns them
sorted in lexicographic path order. -/
theorem find_images_characterization (files : List FPath) :
    (∀ p, p ∈ find_images files ↔ p ∈ files ∧ matchesGlob p = true) ∧
    (find_images files).Sorted (· ≤ ·) := by
  constructor
  · intro p
    unfold find_images
    rw [(List.perm_insertionSort _ _).mem_iff, mem_glob_fold files p image_extensions []]
    simp only [List.not_mem_nil, false_or, matchesGlob, List.any_eq_true]
    constructor
    · rintro ⟨ext, hext, hf, hsuf⟩
      exact ⟨hf, ext, hext, hsuf⟩
    · rintro ⟨hf, ext, hext, hsuf⟩
      exact ⟨ext, hext, hf, hsuf⟩
  · exact List.sorted_insertionSort _ _

theorem head?_filter_range {n : Nat} {q : Nat → Bool} {a : Nat}
    (h : ((List.range n).filter q).head? = some a) :
    leastTrue q n a := by
  induction n with
  | zero => simp at h
  | succ n ih =>
    rw [List.range_succ, List.filter_append] at h
    cases hf : (List.range n).filter q with
    | nil =>
      rw [hf, List.nil_append] at h
      by_cases hq : q n = true
      · have hsing : List.filter q [n] = [n] := by simp [hq]
        rw [hsing, List.head?_cons] at h
        injection h with h
        subst h
        refine ⟨hq, Nat.lt_succ_self _, ?_⟩
        intro i hi
        have := List.filter_eq_nil_iff.mp hf i (List.mem_range.mpr hi)
        simpa using this
      · have hsing : List.filter q [n] = [] := by simp [hq]
        rw [hsing] at h
        simp at h
    | cons c cl =>
      rw [hf, List.cons_append, List.head?_cons] at h
      have hh : ((List.range n).filter q).head? = some a := by
        rw [hf, List.head?_cons, h]
      obtain ⟨h1, h2, h3⟩ := ih hh
      exact ⟨h1, Nat.lt_succ_of_lt h2, h3⟩

theorem getLast?_filter_range {n : Nat} {q : Nat → Bool} {a : Nat}
    (h : ((List.range n).filter q).getLast? = some a) :
    greatestTrue q n a := by
  induction n with
  | zero => simp at h
  | succ n ih =>
    rw [List.range_succ, List.filter_append] at h
    by_cases hq : q n = true
    · have hsing : List.filter q [n] = [n] := by simp [hq]
      rw [hsing, List.getLast?_concat] at h
      injection h with h
      subst h
      refine ⟨hq, Nat.lt_succ_self _, ?_⟩
      intro i hai hin
      omega
    · have hsing : List.filter q [n] = [] := by simp [hq]
      rw [hsing, List.append_nil] at h
      obtain ⟨h1, h2, h3⟩ := ih h
      refine ⟨h1, Nat.lt_succ_of_lt h2, ?_⟩
      intro i hai hin
      rcases Nat.lt_succ_iff_lt_or_eq.mp hin with hi | hi
      · exact h3 i hai hi
      · subst hi
        simpa using hq

theorem contentBounds_eq {img : Img} {t b l r : Nat}
    (h : contentBounds img = some (t, b, l, r)) :
    (contentRows img).head? = some t ∧ (contentRows img).getLast? = some b ∧
      (contentCols img).head? = some l ∧ (contentCols img).getLast? = some r := by
  unfold contentBounds at h
  cases h1 : (contentRows img).head? with
  | none => rw [h1] at h; cases h
  | some t' =>
    cases h2 : (contentRows img).getLast? with
    | none => rw [h1, h2] at h; cases h
    | some b' =>
      cases h3 : (contentCols img).head? with
      | none => rw [h1, h2, h3] at h; cases h
      | some l' =>
        cases h4 : (contentCols img).getLast? with
        | none => rw [h1, h2, h3, h4] at h; cases h
        | some r' =>
          rw [h1, h2, h3, h4] at h
          simp only [Option.some.injEq, Prod.mk.injEq] at h
          obtain ⟨ht, hb, hl, hr⟩ := h
          subst ht; subst hb; subst hl; subst hr
          exact ⟨rfl, rfl, rfl, rfl⟩

/-- Claim C3 (code bug): on the 4×4 image whose content is exactly the 2×2
block at rows and columns 0..1, with the default margin 0.1, the crop
rectangle handed to `img.crop` is `(0, 0, 1, 1)`: pixel `(1, 1)` is content,
yet it lies outside the half-open crop rectangle. The inclusive bound
indices `bottom`/`right` are passed as PIL's exclusive bounds, so whenever
the margin truncates to 0 the crop drops the last content row and column,
contradicting the claim (and the docstring) that the cropped rectangle
contains every content pixel. -/
theorem cropBox_drops_content :
    cropBox demoBlock (1/10 : ℚ) = some (0, 0, 1, 1) ∧
    isContent (demoBlock.pix 1 1) = true ∧
    ¬ inCropRect 0 0 1 1 1 1 := by
  refine ⟨?_, by decide, ?_⟩
  · have h1 : contentBounds demoBlock = some (0, 1, 0, 1) := by decide
    have h2 : cropMargin (1/10 : ℚ) 0 1 0 1 = 0 := by
      rw [cropMargin, pyInt, if_pos (by norm_num)]
      norm_num
    unfold cropBox
    rw [h1]
    simp only [h2]
    norm_num [demoBlock]
  · rintro ⟨-, h2, -, -⟩
    exact absurd h2 (by norm_num)

/-- Claim C4 (counterexample): on the 12×12 image with a 10×10 content block
at rows and columns 1..10, the code computes margin `int(0.1 * 9) = 0` and
returns the rectangle `(1, 1, 10, 10)`, whereas `round(0.1 * box size)` is
`1` whether the box size is read as `right - left = 9` (as the code computes
it) or as the pixel count 10: Python's `int()` truncates toward zero, it
does not round. -/
theorem cropMargin_truncates :
    contentBounds demoBlock10 = some (1, 10, 1, 10) ∧
    cropMargin (1/10 : ℚ) 1 10 1 10 = 0 ∧
    round ((1 : ℚ)/10 * 9) = 1 ∧ round ((1 : ℚ)/10 * 10) = 1 ∧
    cropBox demoBlock10 (1/10 : ℚ) = some (1, 1, 10, 10) := by
  have h1 : contentBounds demoBlock10 = some (1, 10, 1, 10) := by decide
  have h2 : cropMargin (1/10 : ℚ) 1 10 1 10 = 0 := by
    rw [cropMargin, pyInt, if_pos (by norm_num)]
    norm_num
  refine ⟨h1, h2, by norm_num [round_eq], by norm_num [round_eq], ?_⟩
  unfold cropBox
  rw [h1]
  simp only [h2]
  norm_num [demoBlock10]

/-- Claim C4 (amended): whenever `cropBox` returns a rectangle, there are a
least and a greatest content row `t ≤ b` and a least and a greatest content
column `l ≤ r` such that the rectangle is that bounding box expanded
symmetrically on all four edges by `margin = int(max(m*(r-l), m*(b-t)))` —
Python truncation of the margin fraction times the larger inclusive-index
difference, not rounding — and clamped to `[0, width] × [0, height]`, so the
result never extends past the original image bounds. -/
theorem cropBox_margin_characterization (img : Img) (m : ℚ) (L T R B : ℤ)
    (h : cropBox img m = some (L, T, R, B)) :
    ∃ t b l r : Nat,
      leastTrue (rowHasContent img) img.height t ∧
      greatestTrue (rowHasContent img) img.height b ∧
      leastTrue (colHasContent img) img.width l ∧
      greatestTrue (colHasContent img) img.width r ∧
      L = max 0 ((l : ℤ) - cropMargin m t b l r) ∧
      T = max 0 ((t : ℤ) - cropMargin m t b l r) ∧
      R = min (img.width : ℤ) ((r : ℤ) + cropMargin m t b l r) ∧
      B = min (img.height : ℤ) ((b : ℤ) + cropMargin m t b l r) ∧
      0 ≤ L ∧ 0 ≤ T ∧ R ≤ (img.width : ℤ) ∧ B ≤ (img.height : ℤ) := by
  unfold cropBox at h
  cases hcb : contentBounds img with
  | none => rw [hcb] at h; cases h
  | some tb =>
    obtain ⟨t, b, l, r⟩ := tb
    rw [hcb] at h
    simp only [Option.some.injEq, Prod.mk.injEq] at h
    obtain ⟨hL, hT, hR, hB⟩ := h
    obtain ⟨e1, e2, e3, e4⟩ := contentBounds_eq hcb
    refine ⟨t, b, l, r, ?_, ?_, ?_, ?_, hL.symm, hT.symm, hR.symm, hB.symm,
      ?_, ?_, ?_, ?_⟩
    · exact head?_filter_range e1
    · exact getLast?_filter_range e2
    · exact head?_filter_range e3
    · exact getLast?_filter_range e4
    · rw [← hL]; exact le_max_left 0 _
    · rw [← hT]; exact le_max_left 0 _
    · rw [← hR]; exact min_le_left _ _
    · rw [← hB]; exact min_le_left _ _

/-- Witness for the amended C4 at the 3×3 single-dot image: the crop
rectangle `(1, 1, 1, 1)` is the (degenerate) bounding box with truncated
margin 0, clamped to the image. -/
theorem cropBox_margin_char_witness :
    cropBox demoDot (1/10 : ℚ) = some (1, 1, 1, 1) ∧
    (∃ t b l r : Nat,
      leastTrue (rowHasContent demoDot) demoDot.height t ∧
      greatestTrue (rowHasContent demoDot) demoDot.height b ∧
      leastTrue (colHasContent demoDot) demoDot.width l ∧
      greatestTrue (colHasContent demoDot) demoDot.width r ∧
      (1 : ℤ) = max 0 ((l : ℤ) - cropMargin (1/10 : ℚ) t b l r) ∧
      (1 : ℤ) = max 0 ((t : ℤ) - cropMargin (1/10 : ℚ) t b l r) ∧
      (1 : ℤ) = min (demoDot.width : ℤ) ((r : ℤ) + cropMargin (1/10 : ℚ) t b l r) ∧
      (1 : ℤ) = min (demoDot.height : ℤ) ((b : ℤ) + cropMargin (1/10 : ℚ) t b l r) ∧
      (0 : ℤ) ≤ 1 ∧ (0 : ℤ) ≤ 1 ∧ (1 : ℤ) ≤ (demoDot.width : ℤ) ∧
      (1 : ℤ) ≤ (demoDot.height : ℤ)) := by
  have hbox : cropBox demoDot (1/10 : ℚ) = some (1, 1, 1, 1) := by
    have h1 : contentBounds demoDot = some (1, 1, 1, 1) := by decide
    have h2 : cropMargin (1/10 : ℚ) 1 1 1 1 = 0 := by
      rw [cropMargin, pyInt, if_pos (by norm_num)]
      norm_num
    unfold cropBox
    rw [h1]
    simp only [h2]
    norm_num [demoDot]
  exact ⟨hbox, cropBox_margin_characterization demoDot (1/10 : ℚ) 1 1 1 1 hbox⟩
